import Mathlib

set_option autoImplicit false

namespace MedStatus

/-!
Shallow embedding of the med-status data-access core: the mapping cache
(`db_mapping`), the database-name resolver and connection manager
(`database`), and the title-batching step (`step2_process_languages`).
Python dictionaries are modelled as insertion-ordered association lists:
assignment updates the first matching key in place and appends new keys.
-/

/-- An insertion-ordered string-keyed dictionary, as a Python `dict`. -/
abbrev Dict (β : Type) := List (String × β)

/-- Dictionary lookup: value of the first entry with the given key. -/
def dlookup {β : Type} : Dict β → String → Option β
  | [], _ => none
  | (k, v) :: rest, key => if k = key then some v else dlookup rest key

/-- Dictionary assignment `d[key] = val`: update in place when the key is
present, append otherwise (Python dicts preserve insertion order). -/
def dset {β : Type} : Dict β → String → β → Dict β
  | [], key, val => [(key, val)]
  | (k, v) :: rest, key, val =>
      if k = key then (k, val) :: rest else (k, v) :: dset rest key val

theorem dlookup_dset_self {β : Type} (d : Dict β) (k : String) (v : β) :
    dlookup (dset d k v) k = some v := by
  induction d with
  | nil => simp [dset, dlookup]
  | cons p rest ih =>
      obtain ⟨k0, v0⟩ := p
      by_cases h : k0 = k
      · simp [dset, dlookup, h]
      · simp [dset, dlookup, h, ih]

theorem dlookup_dset_isSome {β : Type} (d : Dict β) (k key : String) (v : β) :
    (dlookup (dset d k v) key).isSome = true ↔
      key = k ∨ (dlookup d key).isSome = true := by
  induction d with
  | nil =>
      by_cases hk : k = key
      · subst hk; simp [dset, dlookup]
      · simp [dset, dlookup, hk, Ne.symm hk]
  | cons p rest ih =>
      obtain ⟨k0, v0⟩ := p
      by_cases h0 : k0 = k
      · subst h0
        by_cases hk : k0 = key
        · subst hk; simp [dset, dlookup]
        · simp only [dset, dlookup, if_pos rfl, if_neg hk]
          exact ⟨fun h => Or.inr h, fun h => h.elim (fun h => absurd h.symm hk) id⟩
      · by_cases hk : k0 = key
        · subst hk
          simp [dset, dlookup, h0]
        · simp [dset, dlookup, h0, hk, ih]

/-- Test whether the character list given second begins with
the pattern given first (Python `str.startswith` on character sequences). -/
def startsWithL : List Char → List Char → Bool
  | [], _ => true
  | _ :: _, [] => false
  | p :: ps, c :: cs => p == c && startsWithL ps cs

theorem startsWithL_append (pat rest : List Char) :
    startsWithL pat (pat ++ rest) = true := by
  induction pat with
  | nil => rfl
  | cons c cs ih => simp [startsWithL, ih]

/-! ### Mapping cache (`src/services/db_mapping.py`)

The module itself is not in the source tree (only its unit tests and the
spec describe it), so the definitions below are modelled from the spec.
The file system is made explicit: the persisted snapshot is an optional
dictionary, and the registry fetch is an `Except` value so that a raised
fetch error can be represented. -/

/-- A row of the central registry query: language code, database name and
site URL columns, each possibly empty. -/
structure RegistryRow where
  lang : String
  dbname : String
  url : String
deriving DecidableEq

/-- Modelled from the spec: derive a language code from a site URL's
subdomain — the host label before the first dot, after the scheme. -/
def langFromUrl (url : String) : String :=
  let host : List Char :=
    if startsWithL "https://".data url.data then url.data.drop 8
    else if startsWithL "http://".data url.data then url.data.drop 7
    else url.data
  String.mk (host.takeWhile (fun c => c ≠ '.'))

/-- Modelled from the spec: the key a registry row contributes, if any.
A row contributes only with a non-empty database name; an empty language
code falls back to the code derived from the site URL; a row with neither
is skipped. -/
def rowKey (r : RegistryRow) : Option String :=
  if r.dbname = "" then none
  else if r.lang ≠ "" then some r.lang
  else if langFromUrl r.url ≠ "" then some (langFromUrl r.url)
  else none

/-- One registry row folded into the mapping: a row with a usable key
assigns its database name under that key, any other row is skipped. -/
def fetchStep (m : Dict String) (r : RegistryRow) : Dict String :=
  match rowKey r with
  | some k => dset m k r.dbname
  | none => m

/-- Modelled from the spec: `fetch_database_mapping` folds the registry
rows into a language-to-database-name dictionary. -/
def fetch_database_mapping (rows : List RegistryRow) : Dict String :=
  rows.foldl fetchStep []

/-- Modelled from the spec: `load_db_mapping` reads the persisted
snapshot, yielding the empty mapping when the file is absent. -/
def load_db_mapping (snapshot : Option (Dict String)) : Dict String :=
  snapshot.getD []

/-- Modelled from the spec: `save_db_mapping` serializes the mapping as a
flat key-value object; the persisted snapshot is the mapping itself. -/
def save_db_mapping (m : Dict String) : Dict String := m

/-- Modelled from the spec: the mapping obtained before the
English-default step — the parsed snapshot when present and non-empty,
otherwise the fetch result, degraded to the empty mapping when the fetch
raises. -/
def baseMapping (snapshot : Option (Dict String))
    (fetched : Except Unit (Dict String)) : Dict String :=
  let loaded := load_db_mapping snapshot
  if loaded ≠ [] then loaded
  else
    match fetched with
    | .ok m => save_db_mapping m
    | .error _ => []

/-- Modelled from the spec: after either path, a missing English entry is
manufactured with the bare value `"enwiki"` (no `_p` suffix). -/
def ensureEnglish (m : Dict String) : Dict String :=
  if (dlookup m "en").isSome then m else dset m "en" "enwiki"

/-- Modelled from the spec: `get_database_mapping` (`MappingCache.get`)
as a function of the snapshot state and the fetch outcome. -/
def get_database_mapping (snapshot : Option (Dict String))
    (fetched : Except Unit (Dict String)) : Dict String :=
  ensureEnglish (baseMapping snapshot fetched)

/-- C1: every mapping returned by `get_database_mapping` contains an
entry for the English language, on both the load path and the fetch path,
and when no English entry exists in the underlying mapping the
manufactured entry's value is the bare name `"enwiki"`. -/
theorem get_database_mapping_ensures_english
    (snapshot : Option (Dict String)) (fetched : Except Unit (Dict String)) :
    (dlookup (get_database_mapping snapshot fetched) "en").isSome = true ∧
    (dlookup (baseMapping snapshot fetched) "en" = none →
      dlookup (get_database_mapping snapshot fetched) "en" = some "enwiki") := by
  constructor
  · unfold get_database_mapping ensureEnglish
    cases h : (dlookup (baseMapping snapshot fetched) "en").isSome with
    | true => simp [h]
    | false =>
        simp only [h, Bool.false_eq_true, if_false]
        simp [dlookup_dset_self]
  · intro h
    unfold get_database_mapping ensureEnglish
    simp [h, dlookup_dset_self]

/-- C1 witness: with a snapshot and a fetch both lacking an English
entry, the returned mapping maps `"en"` to `"enwiki"`. -/
theorem get_database_mapping_ensures_english_witness :
    dlookup (get_database_mapping (some [("fr", "frwiki_p")]) (.ok [])) "en"
      = some "enwiki" :=
  (get_database_mapping_ensures_english (some [("fr", "frwiki_p")])
      (.ok [])).2 (by decide)

/-- C2 counterexample: persisting the one-entry mapping `fr ↦ frwiki_p`
and running the load path of `get_database_mapping` does not return the
same mapping — a manufactured English entry is added. -/
theorem get_database_mapping_roundtrip_counterexample :
    get_database_mapping (some (save_db_mapping [("fr", "frwiki_p")]))
      (.ok []) ≠ [("fr", "frwiki_p")] := by
  decide

/-- C2 (amended): persist-then-load round-trips exactly at the snapshot
level for any non-empty mapping, and `get_database_mapping` returns the
persisted mapping unchanged provided it already has an English entry. -/
theorem save_load_roundtrip (m : Dict String)
    (hne : m ≠ []) (hen : (dlookup m "en").isSome = true)
    (fetched : Except Unit (Dict String)) :
    load_db_mapping (some (save_db_mapping m)) = m ∧
    get_database_mapping (some (save_db_mapping m)) fetched = m := by
  refine ⟨rfl, ?_⟩
  unfold get_database_mapping baseMapping ensureEnglish
  simp [load_db_mapping, save_db_mapping, hne, hen]

/-- C2 witness: the amended round-trip at the repository test's mapping. -/
theorem save_load_roundtrip_witness :
    get_database_mapping
        (some (save_db_mapping [("en", "enwiki_p"), ("fr", "frwiki_p")]))
        (.ok [])
      = [("en", "enwiki_p"), ("fr", "frwiki_p")] :=
  (save_load_roundtrip [("en", "enwiki_p"), ("fr", "frwiki_p")]
      (by decide) (by decide) (.ok [])).2

/-- C9: when the snapshot is missing or empty and the registry fetch
raises, `get_database_mapping` does not propagate the error: it returns
exactly the English-default mapping. -/
theorem get_database_mapping_degrades (snapshot : Option (Dict String))
    (e : Unit) (h : load_db_mapping snapshot = []) :
    get_database_mapping snapshot (.error e) = [("en", "enwiki")] := by
  unfold get_database_mapping baseMapping ensureEnglish
  simp [h, dlookup, dset]

/-- C9 witness: with no snapshot and a raising fetch, the result is the
English-only mapping. -/
theorem get_database_mapping_degrades_witness :
    get_database_mapping none (.error ()) = [("en", "enwiki")] :=
  get_database_mapping_degrades none () (by decide)

theorem rowKey_eq_some (r : RegistryRow) (k : String) :
    rowKey r = some k ↔
      r.dbname ≠ "" ∧
        ((r.lang = k ∧ k ≠ "") ∨
          (r.lang = "" ∧ langFromUrl r.url = k ∧ k ≠ "")) := by
  unfold rowKey
  split_ifs with h1 h2 h3
  · simp [h1]
  · constructor
    · intro h
      obtain rfl : r.lang = k := by simpa using h
      exact ⟨h1, Or.inl ⟨rfl, h2⟩⟩
    · rintro ⟨-, h | h⟩
      · simp [h.1]
      · exact absurd h.1 h2
  · push_neg at h2
    constructor
    · intro h
      obtain rfl : langFromUrl r.url = k := by simpa using h
      exact ⟨h1, Or.inr ⟨h2, rfl, h3⟩⟩
    · rintro ⟨-, h | h⟩
      · exact absurd (h2.symm.trans h.1) (Ne.symm h.2)
      · simp [h.2.1]
  · push_neg at h2 h3
    simp only [reduceCtorEq, false_iff]
    rintro ⟨-, h | h⟩
    · exact h.2 (h2 ▸ h.1).symm
    · exact h.2.2 (h3 ▸ h.2.1).symm

theorem foldl_fetchStep_isSome (rows : List RegistryRow) (m : Dict String)
    (k : String) :
    (dlookup (rows.foldl fetchStep m) k).isSome = true ↔
      (dlookup m k).isSome = true ∨ ∃ r ∈ rows, rowKey r = some k := by
  induction rows generalizing m with
  | nil => simp
  | cons r rest ih =>
      simp only [List.foldl_cons]
      rw [ih]
      rcases hr : rowKey r with _ | k0
      · simp [fetchStep, hr]
      · simp only [fetchStep, hr, List.mem_cons]
        rw [dlookup_dset_isSome]
        constructor
        · rintro ((rfl | hm) | hex)
          · exact Or.inr ⟨r, Or.inl rfl, hr⟩
          · exact Or.inl hm
          · obtain ⟨r', hr', hk⟩ := hex
            exact Or.inr ⟨r', Or.inr hr', hk⟩
        · rintro (hm | ⟨r', rfl | hr', hk⟩)
          · exact Or.inl (Or.inr hm)
          · rw [hr] at hk
            exact Or.inl (Or.inl (Option.some_injective _ hk).symm)
          · exact Or.inr ⟨r', hr', hk⟩

/-- C3: `fetch_database_mapping` contains an entry under key `k` exactly
when some row carries a non-empty database name and either has `k` as its
non-empty language code, or has an empty language code and derives `k`
from its site URL's subdomain; rows with neither are skipped. -/
theorem fetch_database_mapping_characterization (rows : List RegistryRow)
    (k : String) :
    (dlookup (fetch_database_mapping rows) k).isSome = true ↔
      ∃ r ∈ rows, r.dbname ≠ "" ∧
        ((r.lang = k ∧ k ≠ "") ∨
          (r.lang = "" ∧ langFromUrl r.url = k ∧ k ≠ "")) := by
  unfold fetch_database_mapping
  rw [foldl_fetchStep_isSome]
  simp only [dlookup, Option.isSome_none, Bool.false_eq_true, false_or]
  exact exists_congr fun r => and_congr_right fun _ => rowKey_eq_some r k

/-! ### Database-name resolver (`DatabaseUtils._check_database_name`)

`src/services/database.py` is not in the source tree (only its unit
tests and the spec describe it), so the resolver below is modelled from
the spec. Strings are manipulated as character lists, matching Python's
character-level `endswith`, slicing and `replace`. -/

/-- Test whether `l` ends with `suf`. -/
def endsWithL (suf l : List Char) : Bool :=
  startsWithL suf.reverse l.reverse

/-- Remove the last `n` characters (Python `s[:-n]`). -/
def dropRightL (l : List Char) (n : Nat) : List Char :=
  l.take (l.length - n)

/-- Python `s.replace("-", "_")`: a single-character replacement is a
character map. -/
def hyphenToUnderscore (l : List Char) : List Char :=
  l.map (fun c => if c = '-' then '_' else c)

/-- Modelled from the spec: the fixed special-case table, keyed by bare
code, covering languages whose canonical database name cannot be derived
by the default transformation; values always carry the `wiki_p` suffix.
Entries are those exercised by the repository's unit tests. -/
def special_cases : List (List Char × List Char) :=
  [("gsw".data, "alswiki_p".data),
   ("vro".data, "fiu_vrowiki_p".data),
   ("be-tarask".data, "be_x_oldwiki_p".data)]

/-- Special-case lookup; per the spec, hyphens are normalized to
underscores on both sides for comparison purposes. -/
def lookupSpecial (code : List Char) : Option (List Char) :=
  match special_cases.find?
      (fun p => hyphenToUnderscore p.1 == hyphenToUnderscore code) with
  | some p => some p.2
  | none => none

/-- Strip a trailing well-known suffix (`wiki_p` first, then `wiki`) to
obtain the bare code. -/
def stripWikiSuffix (l : List Char) : List Char :=
  if endsWithL "wiki_p".data l then dropRightL l 6
  else if endsWithL "wiki".data l then dropRightL l 4
  else l

/-- Modelled from the spec: `DatabaseUtils._check_database_name` — strip
the suffix, consult the special-case table, and otherwise apply the
default transformation (hyphens to underscores, append `wiki_p`). -/
def check_database_name (s : String) : String :=
  let bare := stripWikiSuffix s.data
  match lookupSpecial bare with
  | some name => String.mk name
  | none => String.mk (hyphenToUnderscore bare ++ "wiki_p".data)

/-- C4: for every bare code in the special-case table, the resolver
returns the table's canonical `wiki_p`-suffixed name for all three input
shapes (bare code, code + `wiki`, code + `wiki_p`), and feeding the
resolved name back yields the same name. -/
theorem check_database_name_special_cases :
    ∀ p ∈ special_cases,
      check_database_name (String.mk p.1) = String.mk p.2 ∧
      check_database_name (String.mk (p.1 ++ "wiki".data)) = String.mk p.2 ∧
      check_database_name (String.mk (p.1 ++ "wiki_p".data)) = String.mk p.2 ∧
      check_database_name (check_database_name (String.mk p.1)) =
        check_database_name (String.mk p.1) := by
  decide

/-- C4 witness: the table entry for `gsw` resolves to `alswiki_p` under
all three shapes, idempotently. -/
theorem check_database_name_special_cases_witness :
    check_database_name (String.mk "gsw".data) = String.mk "alswiki_p".data ∧
    check_database_name (String.mk ("gsw".data ++ "wiki".data)) =
      String.mk "alswiki_p".data ∧
    check_database_name (String.mk ("gsw".data ++ "wiki_p".data)) =
      String.mk "alswiki_p".data ∧
    check_database_name (check_database_name (String.mk "gsw".data)) =
      check_database_name (String.mk "gsw".data) :=
  check_database_name_special_cases ("gsw".data, "alswiki_p".data)
    (by decide)

/-- C5: the resolver is total by construction, and on any bare code with
no special-case entry it returns the code with hyphens replaced by
underscores and `wiki_p` appended. -/
theorem check_database_name_default (c : String)
    (h1 : endsWithL "wiki_p".data c.data = false)
    (h2 : endsWithL "wiki".data c.data = false)
    (h3 : lookupSpecial c.data = none) :
    check_database_name c =
      String.mk (hyphenToUnderscore c.data ++ "wiki_p".data) := by
  unfold check_database_name stripWikiSuffix
  simp [h1, h2, h3]

/-- C5 witness: the default transformation at the hyphenated code
`zh-min-nan`. -/
theorem check_database_name_default_witness :
    check_database_name "zh-min-nan" =
      String.mk (hyphenToUnderscore "zh-min-nan".data ++ "wiki_p".data) :=
  check_database_name_default "zh-min-nan" (by decide) (by decide) (by decide)

/-! ### Connection retry (`Database._connect`)

Modelled from the spec: the connect loop classifies failures into
transient (retried, bounded budget, default 3) and fatal (surfaced
immediately). The network is abstracted as a stream `f : Nat → Outcome`
giving the outcome of each attempt. -/

/-- Outcome of one low-level connection attempt. -/
inductive Outcome where
  | success (conn : Nat)
  | transient (err : Nat)
  | fatal (err : Nat)
deriving DecidableEq

/-- Errors surfaced by the connect loop. -/
inductive ConnectError where
  | transient (err : Nat)
  | fatal (err : Nat)
  | noAttempts
deriving DecidableEq

/-- Modelled from the spec: the bounded retry loop of `Database._connect`
over the attempt stream `f`. `connectFrom f i r` runs attempts `i, i+1, …`
with `r` attempts remaining, pairing the result with the number of
attempts actually made: success returns the connection, a fatal failure
is raised immediately, and a transient failure is retried while attempts
remain, the last transient error being raised unchanged at exhaustion. -/
def connectFrom (f : Nat → Outcome) : Nat → Nat → Except ConnectError Nat × Nat
  | _, 0 => (.error .noAttempts, 0)
  | i, r + 1 =>
      match f i with
      | .success c => (.ok c, 1)
      | .fatal e => (.error (.fatal e), 1)
      | .transient e =>
          if r = 0 then (.error (.transient e), 1)
          else
            let rest := connectFrom f (i + 1) r
            (rest.1, rest.2 + 1)

/-- Modelled from the spec: `Database._connect` with its attempt budget
(default 3), starting at the first attempt. -/
def connectWithRetry (f : Nat → Outcome) (retries : Nat) :
    Except ConnectError Nat × Nat :=
  connectFrom f 0 retries

theorem connectFrom_success (f : Nat → Outcome) :
    ∀ k i r c, k < r → (∀ j, j < k → ∃ e, f (i + j) = Outcome.transient e) →
      f (i + k) = Outcome.success c →
      connectFrom f i r = (.ok c, k + 1) := by
  intro k
  induction k with
  | zero =>
      intro i r c hr _ hs
      obtain ⟨r', rfl⟩ : ∃ r', r = r' + 1 := ⟨r - 1, by omega⟩
      rw [Nat.add_zero] at hs
      simp [connectFrom, hs]
  | succ k ih =>
      intro i r c hr htrans hs
      obtain ⟨r', rfl⟩ : ∃ r', r = r' + 1 := ⟨r - 1, by omega⟩
      obtain ⟨e0, he0⟩ := htrans 0 (Nat.succ_pos k)
      rw [Nat.add_zero] at he0
      have hr' : r' ≠ 0 := by omega
      have hrec : connectFrom f (i + 1) r' = (.ok c, k + 1) := by
        refine ih (i + 1) r' c (by omega) (fun j hj => ?_) ?_
        · obtain ⟨e, he⟩ := htrans (j + 1) (by omega)
          exact ⟨e, by rw [show i + 1 + j = i + (j + 1) by omega]; exact he⟩
        · rw [show i + 1 + k = i + (k + 1) by omega]; exact hs
      simp [connectFrom, he0, hr', hrec]

theorem connectFrom_fatal (f : Nat → Outcome) :
    ∀ k i r e, k < r → (∀ j, j < k → ∃ e2, f (i + j) = Outcome.transient e2) →
      f (i + k) = Outcome.fatal e →
      connectFrom f i r = (.error (.fatal e), k + 1) := by
  intro k
  induction k with
  | zero =>
      intro i r e hr _ hs
      obtain ⟨r', rfl⟩ : ∃ r', r = r' + 1 := ⟨r - 1, by omega⟩
      rw [Nat.add_zero] at hs
      simp [connectFrom, hs]
  | succ k ih =>
      intro i r e hr htrans hs
      obtain ⟨r', rfl⟩ : ∃ r', r = r' + 1 := ⟨r - 1, by omega⟩
      obtain ⟨e0, he0⟩ := htrans 0 (Nat.succ_pos k)
      rw [Nat.add_zero] at he0
      have hr' : r' ≠ 0 := by omega
      have hrec : connectFrom f (i + 1) r' = (.error (.fatal e), k + 1) := by
        refine ih (i + 1) r' e (by omega) (fun j hj => ?_) ?_
        · obtain ⟨e2, he2⟩ := htrans (j + 1) (by omega)
          exact ⟨e2, by rw [show i + 1 + j = i + (j + 1) by omega]; exact he2⟩
        · rw [show i + 1 + k = i + (k + 1) by omega]; exact hs
      simp [connectFrom, he0, hr', hrec]

theorem connectFrom_exhausted (f : Nat → Outcome) :
    ∀ r i, 0 < r → (∀ j, ∃ e, f (i + j) = Outcome.transient e) →
      ∃ e, f (i + (r - 1)) = Outcome.transient e ∧
        connectFrom f i r = (.error (.transient e), r) := by
  intro r
  induction r with
  | zero => intro i h0 _; omega
  | succ r ih =>
      intro i _ htrans
      obtain ⟨e0, he0⟩ := htrans 0
      rw [Nat.add_zero] at he0
      by_cases hr : r = 0
      · subst hr
        exact ⟨e0, by simpa using he0, by simp [connectFrom, he0]⟩
      · obtain ⟨e, he, hrec⟩ := ih (i + 1) (by omega) (fun j => by
          obtain ⟨e2, he2⟩ := htrans (j + 1)
          exact ⟨e2, by rw [show i + 1 + j = i + (j + 1) by omega]; exact he2⟩)
        refine ⟨e, ?_, ?_⟩
        · rw [show i + (r + 1 - 1) = i + 1 + (r - 1) by omega]; exact he
        · simp [connectFrom, he0, hr, hrec]

/-- C6: the connect loop retries only transient failures within the
attempt budget — transient failures followed by a success within the
budget yield the connection with no error; transient failures on every
attempt raise the last transient error unchanged after exactly the
configured number of attempts; a fatal failure is surfaced immediately,
at the attempt where it occurs, without retry. -/
theorem connect_retry_behavior (f : Nat → Outcome) (retries : Nat) :
    (∀ k c, k < retries →
        (∀ j, j < k → ∃ e, f j = Outcome.transient e) →
        f k = Outcome.success c →
        connectWithRetry f retries = (.ok c, k + 1)) ∧
    (∀ k e, k < retries →
        (∀ j, j < k → ∃ e2, f j = Outcome.transient e2) →
        f k = Outcome.fatal e →
        connectWithRetry f retries = (.error (.fatal e), k + 1)) ∧
    (0 < retries → (∀ j, ∃ e, f j = Outcome.transient e) →
        ∃ e, f (retries - 1) = Outcome.transient e ∧
          connectWithRetry f retries = (.error (.transient e), retries)) := by
  refine ⟨fun k c hk ht hs => ?_, fun k e hk ht hs => ?_, fun h0 ht => ?_⟩
  · exact connectFrom_success f k 0 retries c hk
      (fun j hj => by simpa using ht j hj) (by simpa using hs)
  · exact connectFrom_fatal f k 0 retries e hk
      (fun j hj => by simpa using ht j hj) (by simpa using hs)
  · obtain ⟨e, he, hc⟩ := connectFrom_exhausted f retries 0 h0
      (fun j => by simpa using ht j)
    exact ⟨e, by simpa using he, hc⟩

/-- C6 witness: one transient failure then a success within a budget of 3
returns the connection on the second attempt, and transient failures on
every attempt raise the last transient error after exactly 3 attempts. -/
theorem connect_retry_behavior_witness :
    connectWithRetry
        (fun i => if i = 0 then Outcome.transient 7 else Outcome.success 42) 3
      = (.ok 42, 2) ∧
    connectWithRetry (fun _ => Outcome.transient 9) 3
      = (.error (.transient 9), 3) := by
  constructor
  · exact (connect_retry_behavior
        (fun i => if i = 0 then Outcome.transient 7 else Outcome.success 42)
        3).1 1 42 (by omega)
      (fun j hj => ⟨7, by have hj0 : j = 0 := by omega
                          subst hj0; rfl⟩) rfl
  · obtain ⟨e, he, hc⟩ := (connect_retry_behavior
        (fun _ => Outcome.transient 9) 3).2.2 (by omega) (fun j => ⟨9, rfl⟩)
    have he9 : e = 9 := by
      have : Outcome.transient 9 = Outcome.transient e := he
      injection this with h
      exact h.symm
    rw [he9] at hc
    exact hc

/-! ### Credential loading (`Database._load_credentials`)

Modelled from the spec: the credential file is a line-oriented text file;
recognized lines are `user=<value>` and `password=<value>`; every other
line (blank lines and comments included) is ignored. The file system is
explicit: `none` stands for an absent file, `some lines` for its lines. -/

/-- Errors raised by credential loading. -/
inductive CredError where
  | notFound
  | malformed
deriving DecidableEq

/-- A loaded credential. -/
structure Credential where
  user : String
  password : String
deriving DecidableEq

/-- Whether a line is a recognized `user=` line. -/
def isUserLine (line : String) : Bool :=
  startsWithL "user=".data line.data

/-- Whether a line is a recognized `password=` line. -/
def isPasswordLine (line : String) : Bool :=
  startsWithL "password=".data line.data

/-- Fold the file's lines into the last seen `user=` and `password=`
values, ignoring every unrecognized line. -/
def parseLines :
    List String → Option String → Option String → Option String × Option String
  | [], u, p => (u, p)
  | line :: rest, u, p =>
      if isUserLine line then
        parseLines rest (some (String.mk (line.data.drop 5))) p
      else if isPasswordLine line then
        parseLines rest u (some (String.mk (line.data.drop 9)))
      else parseLines rest u p

/-- Modelled from the spec: `Database._load_credentials` — absent file
raises the not-found error, and a parse leaving either key unset raises
the malformed error. -/
def load_credentials : Option (List String) → Except CredError Credential
  | none => .error .notFound
  | some lines =>
      match parseLines lines none none with
      | (some u, some p) => .ok ⟨u, p⟩
      | _ => .error .malformed

theorem parseLines_cons_user (line : String) (rest : List String)
    (u p : Option String) (h : isUserLine line = true) :
    parseLines (line :: rest) u p =
      parseLines rest (some (String.mk (line.data.drop 5))) p := by
  simp [parseLines, h]

theorem parseLines_cons_password (line : String) (rest : List String)
    (u p : Option String) (h1 : isUserLine line = false)
    (h2 : isPasswordLine line = true) :
    parseLines (line :: rest) u p =
      parseLines rest u (some (String.mk (line.data.drop 9))) := by
  simp [parseLines, h1, h2]

theorem parseLines_cons_other (line : String) (rest : List String)
    (u p : Option String) (h1 : isUserLine line = false)
    (h2 : isPasswordLine line = false) :
    parseLines (line :: rest) u p = parseLines rest u p := by
  simp [parseLines, h1, h2]

theorem parseLines_append_skip (xs ys : List String)
    (h : ∀ l ∈ xs, isUserLine l = false ∧ isPasswordLine l = false) :
    ∀ u p, parseLines (xs ++ ys) u p = parseLines ys u p := by
  induction xs with
  | nil => intro u p; rfl
  | cons x rest ih =>
      intro u p
      obtain ⟨h1, h2⟩ := h x (List.mem_cons_self x rest)
      rw [List.cons_append, parseLines_cons_other x (rest ++ ys) u p h1 h2]
      exact ih (fun l hl => h l (List.mem_cons_of_mem x hl)) u p

theorem parseLines_skip_all (xs : List String)
    (h : ∀ l ∈ xs, isUserLine l = false ∧ isPasswordLine l = false)
    (u p : Option String) : parseLines xs u p = (u, p) := by
  have := parseLines_append_skip xs [] h u p
  simpa using this

theorem parseLines_fst_of_no_user (xs : List String)
    (h : ∀ l ∈ xs, isUserLine l = false) :
    ∀ u p, (parseLines xs u p).1 = u := by
  induction xs with
  | nil => intro u p; rfl
  | cons x rest ih =>
      intro u p
      have h1 := h x (List.mem_cons_self x rest)
      have hrest := fun l hl => h l (List.mem_cons_of_mem x hl)
      by_cases h2 : isPasswordLine x
      · rw [parseLines_cons_password x rest u p h1 h2]
        exact ih hrest u _
      · rw [parseLines_cons_other x rest u p h1 (by simpa using h2)]
        exact ih hrest u p

theorem parseLines_snd_of_no_password (xs : List String)
    (h : ∀ l ∈ xs, isPasswordLine l = false) :
    ∀ u p, (parseLines xs u p).2 = p := by
  induction xs with
  | nil => intro u p; rfl
  | cons x rest ih =>
      intro u p
      have h2 := h x (List.mem_cons_self x rest)
      have hrest := fun l hl => h l (List.mem_cons_of_mem x hl)
      by_cases h1 : isUserLine x
      · rw [parseLines_cons_user x rest u p h1]
        exact ih hrest _ p
      · rw [parseLines_cons_other x rest u p (by simpa using h1) h2]
        exact ih hrest u p

/-- C7: credential loading returns exactly the file's `user=` and
`password=` values independent of interleaved blank or unrecognized
lines; an absent file raises the not-found error; and a file leaving
either key unset after parsing all lines raises the malformed error. -/
theorem load_credentials_spec :
    (∀ pre mid post : List String, ∀ u p : String,
        (∀ l ∈ pre ++ mid ++ post,
            isUserLine l = false ∧ isPasswordLine l = false) →
        load_credentials (some
            (pre ++ String.mk ("user=".data ++ u.data) ::
              (mid ++ String.mk ("password=".data ++ p.data) :: post)))
          = .ok ⟨u, p⟩) ∧
    load_credentials none = .error .notFound ∧
    (∀ lines : List String,
        ((∀ l ∈ lines, isUserLine l = false) ∨
          (∀ l ∈ lines, isPasswordLine l = false)) →
        load_credentials (some lines) = .error .malformed) := by
  refine ⟨?_, rfl, ?_⟩
  · intro pre mid post u p h
    have hpre : ∀ l ∈ pre, isUserLine l = false ∧ isPasswordLine l = false :=
      fun l hl => h l (by simp [hl])
    have hmid : ∀ l ∈ mid, isUserLine l = false ∧ isPasswordLine l = false :=
      fun l hl => h l (by simp [hl])
    have hpost : ∀ l ∈ post, isUserLine l = false ∧ isPasswordLine l = false :=
      fun l hl => h l (by simp [hl])
    have huser : isUserLine (String.mk ("user=".data ++ u.data)) = true :=
      startsWithL_append "user=".data u.data
    have hpw1 : isUserLine (String.mk ("password=".data ++ p.data)) = false := rfl
    have hpw2 : isPasswordLine (String.mk ("password=".data ++ p.data)) = true :=
      startsWithL_append "password=".data p.data
    simp only [load_credentials]
    rw [parseLines_append_skip pre _ hpre,
      parseLines_cons_user _ _ _ _ huser,
      parseLines_append_skip mid _ hmid,
      parseLines_cons_password _ _ _ _ hpw1 hpw2,
      parseLines_skip_all post hpost]
    rfl
  · intro lines h
    rcases h with h | h
    · have hfst := parseLines_fst_of_no_user lines h none none
      simp only [load_credentials]
      rcases hp : parseLines lines none none with ⟨a, b⟩
      rw [hp] at hfst
      simp only at hfst
      subst hfst
      cases b <;> rfl
    · have hsnd := parseLines_snd_of_no_password lines h none none
      simp only [load_credentials]
      rcases hp : parseLines lines none none with ⟨a, b⟩
      rw [hp] at hsnd
      simp only at hsnd
      subst hsnd
      cases a <;> rfl

/-- C7 witness: a file with a comment and a blank line interleaved loads
the credential `{user := "test", password := "pass"}`. -/
theorem load_credentials_spec_witness :
    load_credentials (some
        (["# comment"] ++ String.mk ("user=".data ++ "test".data) ::
          ([""] ++ String.mk ("password=".data ++ "pass".data) :: [])))
      = .ok ⟨"test", "pass"⟩ :=
  load_credentials_spec.1 ["# comment"] [""] [] "test" "pass" (by decide)

/-! ### Byte normalization (`DatabaseUtils.resolve_bytes`)

Modelled from the spec: every byte-sequence value in a result row is
decoded to text — exactly for valid UTF-8, with the replacement character
for invalid sequences — recursing through nested mappings and sequences,
so the caller never sees a raw byte sequence. Bytes are `List Nat`. -/

/-- The Unicode replacement character used by the lossy strategy. -/
def replacementChar : Char := '�'

/-- Whether a byte is a UTF-8 continuation byte. -/
def isCont (b : Nat) : Bool := 128 ≤ b && b ≤ 191

/-- Modelled from the spec: UTF-8 decoding with the lossy/replacement
strategy on invalid sequences (as Python's `errors="replace"`): valid
1—4-byte sequences decode exactly (overlong and surrogate encodings
rejected), anything else contributes a replacement character. -/
def utf8DecodeLossy : List Nat → List Char
  | [] => []
  | b :: rest =>
      if b < 128 then Char.ofNat b :: utf8DecodeLossy rest
      else if 194 ≤ b && b ≤ 223 then
        match rest with
        | c1 :: rest2 =>
            if isCont c1 then
              Char.ofNat ((b - 192) * 64 + (c1 - 128)) :: utf8DecodeLossy rest2
            else replacementChar :: utf8DecodeLossy (c1 :: rest2)
        | [] => [replacementChar]
      else if 224 ≤ b && b ≤ 239 then
        match rest with
        | c1 :: c2 :: rest3 =>
            if isCont c1 && isCont c2 &&
                !(b == 224 && c1 < 160) && !(b == 237 && 160 ≤ c1) then
              Char.ofNat ((b - 224) * 4096 + (c1 - 128) * 64 + (c2 - 128)) ::
                utf8DecodeLossy rest3
            else replacementChar :: utf8DecodeLossy (c1 :: c2 :: rest3)
        | _ => [replacementChar]
      else if 240 ≤ b && b ≤ 244 then
        match rest with
        | c1 :: c2 :: c3 :: rest4 =>
            if isCont c1 && isCont c2 && isCont c3 &&
                !(b == 240 && c1 < 144) && !(b == 244 && 144 ≤ c1) then
              Char.ofNat ((b - 240) * 262144 + (c1 - 128) * 4096 +
                  (c2 - 128) * 64 + (c3 - 128)) :: utf8DecodeLossy rest4
            else replacementChar :: utf8DecodeLossy (c1 :: c2 :: c3 :: rest4)
        | _ => [replacementChar]
      else replacementChar :: utf8DecodeLossy rest

/-- Lossy decoding of a byte sequence to a text value. -/
def decodeLossy (b : List Nat) : String := String.mk (utf8DecodeLossy b)

mutual

/-- A result-row value as the cursor hands it over: bytes, text, number,
nested sequence, or nested mapping (whose keys may themselves be bytes). -/
inductive Value where
  | vbytes : List Nat → Value
  | vstr : String → Value
  | vint : Int → Value
  | vlist : ValueList → Value
  | vdict : EntryList → Value

/-- A nested sequence of values. -/
inductive ValueList where
  | nil : ValueList
  | cons : Value → ValueList → ValueList

/-- The key-value entries of a nested mapping. -/
inductive EntryList where
  | nil : EntryList
  | cons : Value → Value → EntryList → EntryList

end

mutual

/-- Modelled from the spec: `DatabaseUtils.resolve_bytes` — decode every
byte-sequence value to text, recurse through nested sequences and
mappings (keys included), and leave every other value unchanged. -/
def resolve_bytes : Value → Value
  | .vbytes b => .vstr (decodeLossy b)
  | .vstr s => .vstr s
  | .vint n => .vint n
  | .vlist xs => .vlist (resolveValueList xs)
  | .vdict es => .vdict (resolveEntryList es)

/-- Map `resolve_bytes` over a nested sequence. -/
def resolveValueList : ValueList → ValueList
  | .nil => .nil
  | .cons v rest => .cons (resolve_bytes v) (resolveValueList rest)

/-- Map `resolve_bytes` over the entries of a nested mapping. -/
def resolveEntryList : EntryList → EntryList
  | .nil => .nil
  | .cons k v rest =>
      .cons (resolve_bytes k) (resolve_bytes v) (resolveEntryList rest)

end

mutual

/-- Whether a raw byte-sequence occurs anywhere in the value. -/
def hasBytes : Value → Bool
  | .vbytes _ => true
  | .vstr _ => false
  | .vint _ => false
  | .vlist xs => hasBytesList xs
  | .vdict es => hasBytesEntries es

/-- Whether a raw byte-sequence occurs anywhere in a nested sequence. -/
def hasBytesList : ValueList → Bool
  | .nil => false
  | .cons v rest => hasBytes v || hasBytesList rest

/-- Whether a raw byte-sequence occurs anywhere in a nested mapping. -/
def hasBytesEntries : EntryList → Bool
  | .nil => false
  | .cons k v rest => hasBytes k || hasBytes v || hasBytesEntries rest

end

mutual

theorem hasBytes_resolve : ∀ v : Value, hasBytes (resolve_bytes v) = false
  | .vbytes _ => rfl
  | .vstr _ => rfl
  | .vint _ => rfl
  | .vlist xs => by
      simp [resolve_bytes, hasBytes, hasBytesList_resolve xs]
  | .vdict es => by
      simp [resolve_bytes, hasBytes, hasBytesEntries_resolve es]

theorem hasBytesList_resolve :
    ∀ xs : ValueList, hasBytesList (resolveValueList xs) = false
  | .nil => rfl
  | .cons v rest => by
      simp [resolveValueList, hasBytesList, hasBytes_resolve v,
        hasBytesList_resolve rest]

theorem hasBytesEntries_resolve :
    ∀ es : EntryList, hasBytesEntries (resolveEntryList es) = false
  | .nil => rfl
  | .cons k v rest => by
      simp [resolveEntryList, hasBytesEntries, hasBytes_resolve k,
        hasBytes_resolve v, hasBytesEntries_resolve rest]

end

mutual

theorem resolve_id_of_no_bytes :
    ∀ v : Value, hasBytes v = false → resolve_bytes v = v
  | .vbytes _ => by intro h; simp [hasBytes] at h
  | .vstr _ => fun _ => rfl
  | .vint _ => fun _ => rfl
  | .vlist xs => by
      intro h
      simp only [hasBytes] at h
      simp [resolve_bytes, resolveValueList_id_of_no_bytes xs h]
  | .vdict es => by
      intro h
      simp only [hasBytes] at h
      simp [resolve_bytes, resolveEntryList_id_of_no_bytes es h]

theorem resolveValueList_id_of_no_bytes :
    ∀ xs : ValueList, hasBytesList xs = false → resolveValueList xs = xs
  | .nil => fun _ => rfl
  | .cons v rest => by
      intro h
      simp only [hasBytesList, Bool.or_eq_false_iff] at h
      simp [resolveValueList, resolve_id_of_no_bytes v h.1,
        resolveValueList_id_of_no_bytes rest h.2]

theorem resolveEntryList_id_of_no_bytes :
    ∀ es : EntryList, hasBytesEntries es = false → resolveEntryList es = es
  | .nil => fun _ => rfl
  | .cons k v rest => by
      intro h
      simp only [hasBytesEntries, Bool.or_eq_false_iff] at h
      simp [resolveEntryList, resolve_id_of_no_bytes k h.1.1,
        resolve_id_of_no_bytes v h.1.2,
        resolveEntryList_id_of_no_bytes rest h.2]

end

/-- C8: byte normalization converts every byte-sequence anywhere in a
value to text via the lossy UTF-8 decoding, and leaves values containing
no byte-sequence unchanged, so the caller never sees a raw byte sequence
anywhere in the result. -/
theorem resolve_bytes_spec (v : Value) :
    hasBytes (resolve_bytes v) = false ∧
    (hasBytes v = false → resolve_bytes v = v) ∧
    (∀ b, resolve_bytes (Value.vbytes b) = Value.vstr (decodeLossy b)) :=
  ⟨hasBytes_resolve v, resolve_id_of_no_bytes v, fun _ => rfl⟩

/-- C8 witness: a byte-free nested value is returned unchanged. -/
theorem resolve_bytes_spec_witness :
    resolve_bytes
        (Value.vdict (EntryList.cons (Value.vstr "num") (Value.vint 42)
          EntryList.nil))
      = Value.vdict (EntryList.cons (Value.vstr "num") (Value.vint 42)
          EntryList.nil) :=
  (resolve_bytes_spec
      (Value.vdict (EntryList.cons (Value.vstr "num") (Value.vint 42)
        EntryList.nil))).2.1 rfl

/-! ### Title batching (`_process_titles_for_language`,
`src/src/workflow/step2_process_languages.py`)

The processor's `process_language` call is abstracted as a function `f`
from a title batch to an editor-count dictionary; the merge loop mirrors
the source: for each batch entry, increment the editor's count when it is
present, insert it otherwise. -/

/-- The merge loop body, `editors[editor] += count` when present and
`editors[editor] = count` otherwise: update the existing entry in place, append when absent. -/
def addTo : Dict Nat → String → Nat → Dict Nat
  | [], k, c => [(k, c)]
  | (k0, c0) :: rest, k, c =>
      if k0 = k then (k0, c0 + c) :: rest else (k0, c0) :: addTo rest k c

/-- The batch-merge loop: fold every entry of the batch result into the
accumulated editors dictionary. -/
def mergeAdd (acc : Dict Nat) (batch : Dict Nat) : Dict Nat :=
  batch.foldl (fun a p => addTo a p.1 p.2) acc

/-- Consecutive slices `titles[i : i + bs]` for `i = 0, bs, 2·bs, …`
(meaningful for `1 ≤ bs`, as in the source's `range(0, len, bs)`). -/
def toBatches (bs : Nat) : List String → List (List String)
  | [] => []
  | x :: xs => ((x :: xs).take bs) :: toBatches bs (xs.drop (bs - 1))
termination_by l => l.length
decreasing_by simp [List.length_drop]; omega

/-- Source `_process_titles_for_language`: a single call when the titles fit in
one batch, otherwise the per-batch results merged by the loop above. -/
def process_titles_for_language (f : List String → Dict Nat)
    (titles : List String) (bs : Nat) : Dict Nat :=
  if titles.length ≤ bs then f titles
  else (toBatches bs titles).foldl (fun acc b => mergeAdd acc (f b)) []

/-- An editor's count in a dictionary, zero when absent. -/
def dictCount (d : Dict Nat) (e : String) : Nat :=
  (dlookup d e).getD 0

/-- The total count recorded for an editor across a dictionary's
entries. -/
def sumCounts : Dict Nat → String → Nat
  | [], _ => 0
  | (k, c) :: rest, e => (if k = e then c else 0) + sumCounts rest e

theorem dictCount_addTo (d : Dict Nat) (k : String) (c : Nat) (e : String) :
    dictCount (addTo d k c) e = dictCount d e + (if k = e then c else 0) := by
  induction d with
  | nil =>
      by_cases h : k = e <;> simp [addTo, dictCount, dlookup, h]
  | cons p rest ih =>
      obtain ⟨k0, c0⟩ := p
      simp only [addTo]
      by_cases h0 : k0 = k
      · subst h0
        rw [if_pos rfl]
        by_cases he : k0 = e
        · subst he; simp [dictCount, dlookup]
        · simp [dictCount, dlookup, he]
      · rw [if_neg h0]
        by_cases he : k0 = e
        · subst he
          have hk : ¬k = k0 := fun h => h0 h.symm
          simp [dictCount, dlookup, hk]
        · simp only [dictCount, dlookup, if_neg he]
          exact ih

theorem dictCount_mergeAdd (batch : Dict Nat) :
    ∀ acc : Dict Nat, ∀ e : String,
      dictCount (mergeAdd acc batch) e = dictCount acc e + sumCounts batch e := by
  induction batch with
  | nil => intro acc e; simp [mergeAdd, sumCounts]
  | cons p rest ih =>
      intro acc e
      obtain ⟨k, c⟩ := p
      have : mergeAdd acc ((k, c) :: rest) = mergeAdd (addTo acc k c) rest := rfl
      rw [this, ih, dictCount_addTo]
      simp [sumCounts]
      omega

theorem dictCount_foldl_mergeAdd (f : List String → Dict Nat)
    (batches : List (List String)) :
    ∀ acc : Dict Nat, ∀ e : String,
      dictCount (batches.foldl (fun acc b => mergeAdd acc (f b)) acc) e =
        dictCount acc e + (batches.map (fun b => sumCounts (f b) e)).sum := by
  induction batches with
  | nil => intro acc e; simp
  | cons b rest ih =>
      intro acc e
      simp only [List.foldl_cons, List.map_cons, List.sum_cons]
      rw [ih, dictCount_mergeAdd]
      omega

theorem toBatches_flatten (bs : Nat) (hbs : 1 ≤ bs) :
    ∀ l : List String, (toBatches bs l).flatten = l := by
  have key : ∀ n : Nat, ∀ l : List String, l.length ≤ n →
      (toBatches bs l).flatten = l := by
    intro n
    induction n with
    | zero =>
        intro l hl
        obtain rfl : l = [] := List.length_eq_zero.mp (by omega)
        simp [toBatches]
    | succ n ih =>
        intro l hl
        cases l with
        | nil => simp [toBatches]
        | cons x xs =>
            rw [toBatches, List.flatten_cons]
            rw [ih (xs.drop (bs - 1)) (by simp at hl ⊢; omega)]
            obtain ⟨b', rfl⟩ : ∃ b', bs = b' + 1 := ⟨bs - 1, by omega⟩
            simp [List.take_append_drop]
  exact fun l => key l.length l le_rfl

/-- C10: with batch size at least 1, `_process_titles_for_language`
returns the single-call result when the titles fit in one batch;
otherwise it returns a dictionary giving every editor the sum of that
editor's counts across the per-batch `process_language` results, over
batches that are consecutive slices whose concatenation is exactly the
title list — nothing lost, nothing double-counted. -/
theorem process_titles_for_language_spec (f : List String → Dict Nat)
    (titles : List String) (bs : Nat) (hbs : 1 ≤ bs) :
    (titles.length ≤ bs → process_titles_for_language f titles bs = f titles) ∧
    (bs < titles.length → ∀ e,
        dictCount (process_titles_for_language f titles bs) e =
          ((toBatches bs titles).map (fun b => sumCounts (f b) e)).sum) ∧
    (toBatches bs titles).flatten = titles := by
  refine ⟨fun h => by simp [process_titles_for_language, h], fun h e => ?_,
    toBatches_flatten bs hbs titles⟩
  rw [process_titles_for_language, if_neg (by omega)]
  rw [dictCount_foldl_mergeAdd]
  simp [dictCount, dlookup]

/-- C10 witness: three titles in batches of two — the middle editor's
counts from both batches are summed. -/
theorem process_titles_for_language_spec_witness :
    dictCount
        (process_titles_for_language (fun ts => ts.map (fun t => (t, 1)))
          ["a", "b", "a"] 2) "a"
      = ((toBatches 2 ["a", "b", "a"]).map
          (fun b => sumCounts ((fun ts => ts.map (fun t => (t, 1))) b) "a")).sum :=
  (process_titles_for_language_spec (fun ts => ts.map (fun t => (t, 1)))
      ["a", "b", "a"] 2 (by omega)).2.1 (by decide) "a"

end MedStatus
